import Mathlib

/-!
Verification of the splay-tree rope implementation in
`src/rope_data_structure.c`.

Embedding notes.  The C code stores nodes on the heap (`struct Node`) with
fields `value`, `parent`, `left`, `right`, `size`; malloc addresses are
modelled by explicit natural-number ids carried on every node.  A tree is the
inductive type `PTree`; the stored `size` field and the stored `parent`
back-reference are data, maintained exactly by the translated code (they are
NOT derived quantities, so the size invariant and the parent-consistency
invariant are genuine theorems about the translation).  The parent-pointer
walk of `_splay` is embedded as a zipper: the chain of ancestors of the node
being splayed is the list of `Frame`s (innermost ancestor first); this is
exactly the information the C code reaches through `node->parent`.  The
top-level functions (`orderStatisticZeroBasedRanking`, `insert`,
`insertSpecific`, `merge`, `split`, `process`) follow the C sources line by
line; `DEBUG` is not defined in the source (line 4 is commented out), so the
`#ifdef DEBUG` bounds checks are compiled out and are absent here as well.
Places where the C code would dereference a null pointer (undefined
behaviour) are modelled by `Option`, with `none` marking the UB.
-/

namespace Rope

/-- One heap node of `struct Node` (rope_data_structure.c lines 45-49):
a character `value`, the `parent` back-reference, `left`/`right` children,
and the stored subtree-`size` field.  `id` models the node's address. -/
inductive PTree where
  | nil : PTree
  | node (id : Nat) (value : Char) (parent : Option Nat)
         (left : PTree) (right : PTree) (size : Nat) : PTree
deriving DecidableEq

/-- The stored `size` field (`x ? x->size : 0` in the C code). -/
def sz : PTree → Nat
  | .nil => 0
  | .node _ _ _ _ _ s => s

/-- Assignment `t->parent = p` to the root node of a subtree (no-op on null,
mirroring the C guards `if (B) B->parent = node;`, `if (tree->root) ...`). -/
def setParent (p : Option Nat) : PTree → PTree
  | .nil => .nil
  | .node i v _ l r s => .node i v p l r s

/-- Address of the root node of a subtree (`none` for the null pointer). -/
def rootId : PTree → Option Nat
  | .nil => none
  | .node i _ _ _ _ _ => some i

/-- Character stored in the root node of a subtree. -/
def rootVal : PTree → Option Char
  | .nil => none
  | .node _ v _ _ _ _ => some v

/-- In-order character sequence of a subtree; this is the document text the
iterative `inOrder` traversal of the C code (lines 147-172) prints. -/
def inOrder : PTree → List Char
  | .nil => []
  | .node _ v _ l r _ => inOrder l ++ v :: inOrder r

/-- Actual number of nodes in a subtree (as opposed to the stored `size`). -/
def cnt : PTree → Nat
  | .nil => 0
  | .node _ _ _ l r _ => cnt l + cnt r + 1

/-- Addresses of all nodes in a subtree. -/
def ids : PTree → List Nat
  | .nil => []
  | .node i _ _ l r _ => ids l ++ i :: ids r

/-- The size invariant: every node's stored `size` field equals
`1 + size(left) + size(right)` (missing child counting as 0). -/
def sizeOk : PTree → Bool
  | .nil => true
  | .node _ _ _ l r s => (s == sz l + sz r + 1) && sizeOk l && sizeOk r

/-- Parent-pointer consistency of a subtree whose root node is reached by a
child link from the node with address `q` (`q = none` for the tree root):
every node's stored `parent` field names the node it actually hangs below. -/
def parentIs : Option Nat → PTree → Bool
  | _, .nil => true
  | q, .node i _ p l r _ => (p == q) && parentIs (some i) l && parentIs (some i) r

/-- Parent consistency restricted to non-root nodes (the root's own `parent`
field is left unconstrained), matching the invariant "for every non-root
node, exactly one of its parent's left/right links points back to it". -/
def parentsConsistent : PTree → Bool
  | .nil => true
  | .node i _ _ l r _ => parentIs (some i) l && parentIs (some i) r

/-- `struct SplayTree` (lines 57-60): root pointer plus the cached size. -/
structure SplayTree where
  root : PTree
  size : Nat
deriving DecidableEq

/-- The empty tree of `createTree` (lines 80-85); also stands for a null
`SplayTree*` handle (the two are indistinguishable to `merge`, the only
function the C code applies to a null handle). -/
def emptyTree : SplayTree := { root := .nil, size := 0 }

/-- Structural well-formedness of a subtree: sizes correct, all parent
back-references consistent, root's parent null. -/
def wfT (t : PTree) : Bool := sizeOk t && parentIs none t

/-- Well-formedness of a tree handle: well-formed root and the cached
`tree->size` equal to the root's stored size. -/
def wfS (t : SplayTree) : Bool := wfT t.root && (t.size == sz t.root)

/-- The size part of the invariant alone: every reachable node satisfies
`size == 1 + size(left) + size(right)` and the cached tree size equals the
root's (0 when the root is null). -/
def sizeInv (t : SplayTree) : Bool := sizeOk t.root && (t.size == sz t.root)

/-- `_rotateRight(tree, node)` (lines 177-201) applied to the subtree rooted
at `node`.  The rotated node's stored `parent` field (`Node *parent =
node->parent`) is transferred to the promoted child `Y`; storing the result
back through the parent's child link / `tree->root` is done by the caller
(the zipper hole).  Sizes are recomputed from the stored fields exactly as in
lines 199-200, child assignments first.  No-op when `node->left` is null. -/
def rotateRight : PTree → PTree
  | .nil => .nil
  | .node nid nv np Y R ns =>
    match Y with
    | .nil => .node nid nv np .nil R ns
    | .node yid yv _ A B _ =>
      let newB := setParent (some nid) B
      let newN := PTree.node nid nv (some yid) newB R (sz newB + sz R + 1)
      PTree.node yid yv np A newN (sz A + sz newN + 1)

/-- `_rotateLeft(tree, node)` (lines 206-230), mirror image of
`rotateRight`. -/
def rotateLeft : PTree → PTree
  | .nil => .nil
  | .node nid nv np L X ns =>
    match X with
    | .nil => .node nid nv np L .nil ns
    | .node xid xv _ B A _ =>
      let newB := setParent (some nid) B
      let newN := PTree.node nid nv (some xid) L newB (sz L + sz newB + 1)
      PTree.node xid xv np newN A (sz newN + sz A + 1)

/-- Direction of the child link through which the focused node hangs off its
parent (`node == parent->left` vs `node == parent->right`). -/
inductive Dir where
  | left : Dir
  | right : Dir
deriving DecidableEq

/-- One ancestor on the parent chain of the focused node: the parent node's
stored fields (`id`, `value`, its own `parent` field, its stored `size`) and
the sibling subtree hanging off its other child link. -/
structure Frame where
  dir : Dir
  id : Nat
  value : Char
  parent : Option Nat
  other : PTree
  size : Nat
deriving DecidableEq

/-- The parent chain of the focused node, innermost ancestor first.  This is
the zipper embedding of the `node->parent` pointer chain. -/
abbrev Ctx := List Frame

/-- Rebuild the parent node from its frame with subtree `t` in the hole. -/
def plug (f : Frame) (t : PTree) : PTree :=
  match f.dir with
  | .left => .node f.id f.value f.parent t f.other f.size
  | .right => .node f.id f.value f.parent f.other t f.size

/-- Rebuild the whole tree from a focused subtree and its parent chain. -/
def plugCtx : PTree → Ctx → PTree
  | t, [] => t
  | t, f :: c => plugCtx (plug f t) c

/-- Address of the focused node's parent (`node->parent`): head of the
parent chain, `none` when the node is the tree root. -/
def ctxHeadId : Ctx → Option Nat
  | [] => none
  | f :: _ => some f.id

/-- In-order characters lying strictly before the hole of a context. -/
def ctxPre : Ctx → List Char
  | [] => []
  | f :: c =>
    match f.dir with
    | .left => ctxPre c
    | .right => ctxPre c ++ (inOrder f.other ++ [f.value])

/-- In-order characters lying strictly after the hole of a context. -/
def ctxPost : Ctx → List Char
  | [] => []
  | f :: c =>
    match f.dir with
    | .left => (f.value :: inOrder f.other) ++ ctxPost c
    | .right => ctxPost c

/-- Well-formedness of a parent chain: each sibling subtree has correct
sizes and parent fields, and each ancestor's stored `parent` field names the
next ancestor (null at the root). -/
def ctxOk : Ctx → Bool
  | [] => true
  | f :: c => sizeOk f.other && parentIs (some f.id) f.other
      && (f.parent == ctxHeadId c) && ctxOk c

/-- The zig case of `_splay` (lines 247-253): the focused node's parent is
the root; one rotation of the parent in the direction that brings the node
up. -/
def splayZig (t : PTree) (f : Frame) : PTree :=
  match f.dir with
  | .left => rotateRight (plug f t)
  | .right => rotateLeft (plug f t)

/-- The zig-zig / zig-zag cases of `_splay` (lines 255-279): two rotations
chosen by the relative directions of node/parent (`f1`) and
parent/grandparent (`f2`), in exactly the order the C code applies them. -/
def splayDouble (t : PTree) (f1 f2 : Frame) : PTree :=
  match f1.dir, f2.dir with
  | .left, .left => rotateRight (rotateRight (plug f2 (plug f1 t)))
  | .left, .right => rotateLeft (plug f2 (rotateRight (plug f1 t)))
  | .right, .right => rotateLeft (rotateLeft (plug f2 (plug f1 t)))
  | .right, .left => rotateRight (plug f2 (rotateLeft (plug f1 t)))

/-- One iteration of the `while (parent)` loop of `_splay` (lines 241-282):
consumes one ancestor (zig) or two (zig-zig / zig-zag) from the parent chain
and returns the updated focused subtree with the remaining chain. -/
def splayStep : PTree → Ctx → PTree × Ctx
  | t, [] => (t, [])
  | t, [f] => (splayZig t f, [])
  | t, f1 :: f2 :: rest => (splayDouble t f1 f2, rest)

/-- The full `while (parent)` loop of `_splay`: iterate `splayStep` until the
focused node has no parent; the result is the new whole tree, rooted at the
splayed node. -/
def splayLoop : PTree → Ctx → PTree
  | t, [] => t
  | t, [f] => splayZig t f
  | t, f1 :: f2 :: rest => splayLoop (splayDouble t f1 f2) rest

/-- The descent loop of `orderStatisticZeroBasedRanking` (lines 295-317),
recording the parent chain of the visited node so that the final `_splay`
call can climb it.  At each node `s = size(left)`; stop on `k == s`, go left
on `k < s` (stop if no left child), otherwise go right with
`k' = k - s - 1` (stop if no right child). -/
def osDescend : PTree → Nat → Ctx → Ctx × PTree
  | .nil, _, c => (c, .nil)
  | .node i v p l r s0, k, c =>
    if k = sz l then (c, .node i v p l r s0)
    else if k < sz l then
      if l = .nil then (c, .node i v p l r s0)
      else osDescend l k
        ({ dir := .left, id := i, value := v, parent := p, other := r, size := s0 } :: c)
    else
      if r = .nil then (c, .node i v p l r s0)
      else osDescend r (k - sz l - 1)
        ({ dir := .right, id := i, value := v, parent := p, other := l, size := s0 } :: c)

/-- `orderStatisticZeroBasedRanking(tree, k)` (lines 288-320): descend by
subtree sizes from the root, then splay the node the descent stopped at; the
node is returned, and the tree's root is updated by the rotations.  With
`DEBUG` undefined there is no bounds check on `k`.  Returns the updated tree
handle together with the returned `Node*` (null on an empty tree). -/
def orderStatisticZeroBasedRanking (tree : SplayTree) (k : Nat) : SplayTree × PTree :=
  match tree.root with
  | .nil => (tree, .nil)
  | t =>
    let d := osDescend t k []
    let newRoot := splayLoop d.2 d.1
    ({ root := newRoot, size := tree.size }, newRoot)

/-- The right-spine descent of `subtreeMaximum` (lines 391-392), recording
the parent chain for the final splay. -/
def maxDescend : PTree → Ctx → Ctx × PTree
  | .nil, c => (c, .nil)
  | .node i v p l r s, c =>
    if r = .nil then (c, .node i v p l r s)
    else maxDescend r
      ({ dir := .right, id := i, value := v, parent := p, other := l, size := s } :: c)

/-- `subtreeMaximum(tree, node)` (lines 388-395) as used by `merge`, which
always passes `node = tree->root`: walk to the rightmost node, splay it. -/
def subtreeMaximum (tree : SplayTree) (t : PTree) : SplayTree × PTree :=
  match t with
  | .nil => (tree, .nil)
  | t =>
    let d := maxDescend t []
    let newRoot := splayLoop d.2 d.1
    ({ root := newRoot, size := tree.size }, newRoot)

/-- `insert(tree, rank, value)` (lines 330-367), the general-position splay
insert.  `freshId` models the address malloc returns for `createNode`.
With `DEBUG` undefined there is no bounds check on `rank`.  `none` models the
null-pointer dereference the C code commits when the located node is null
(only possible on a handle whose cached size and root disagree).
Note line 360: `node->left = right->left` transfers the located node's left
subtree under the new node WITHOUT updating that subtree's `parent`
back-reference. -/
def insert (tree : SplayTree) (rank : Nat) (value : Char) (freshId : Nat) :
    Option SplayTree :=
  if rank = tree.size ∧ tree.size > 0 then
    -- inserting at the end of the whole text (lines 341-349)
    match (orderStatisticZeroBasedRanking tree (rank - 1)).2 with
    | .nil => none
    | last =>
      some { root := .node freshId value none (setParent (some freshId) last) .nil
                       (sz last + 1),
             size := tree.size + 1 }
  else if tree.size = 0 then
    -- the tree is empty (lines 352-357)
    some { root := .node freshId value none .nil .nil 1, size := tree.size + 1 }
  else
    -- inserting in the middle or at the beginning (lines 358-366)
    match (orderStatisticZeroBasedRanking tree rank).2 with
    | .nil => none
    | .node ri rv _ rl rr _ =>
      let right := PTree.node ri rv (some freshId) .nil rr (sz rr + 1)
      some { root := .node freshId value none rl right (sz rl + sz right + 1),
             size := tree.size + 1 }

/-- `insertSpecific(tree, value)` (lines 375-383), the bulk-load insert: the
new node becomes the root with the previous tree as its left child. -/
def insertSpecific (tree : SplayTree) (value : Char) (freshId : Nat) : SplayTree :=
  let oldRoot := setParent (some freshId) tree.root
  { root := .node freshId value none oldRoot .nil (sz oldRoot + 1),
    size := tree.size + 1 }

/-- `main`'s build loop (lines 489-491): bulk-load a string one character at
a time via `insertSpecific`; fresh node ids are allocated consecutively. -/
def buildRope (s : List Char) : SplayTree :=
  s.foldl (fun t ch => insertSpecific t ch t.size) emptyTree

/-- `merge(tree1, tree2)` (lines 404-416): if either handle is null or
empty, return the other; otherwise splay the maximum of `tree1` to its root,
attach `tree2`'s root as its right child (overwriting the right link), and
recompute the root's stored size and the cached tree size from it. -/
def merge (tree1 tree2 : SplayTree) : SplayTree :=
  match tree1.root with
  | .nil => tree2
  | r1 =>
    match tree2.root with
    | .nil => tree1
    | root2 =>
      match (subtreeMaximum tree1 r1).2 with
      | .nil => tree1
      | .node i v p l _ _ =>
        let newRight := setParent (some i) root2
        let newRoot := PTree.node i v p l newRight (sz l + sz newRight + 1)
        { root := newRoot, size := sz newRoot }

/-- `split(tree, rank, &tree1, &tree2)` (lines 424-439): splay the node of
rank `rank` to the root, detach its right subtree; `tree1` keeps the root
with its size recomputed, `tree2` gets the detached subtree with its parent
cleared (empty tree when there is none).  `none` models the null-pointer
dereference `root1->right` committed when the tree is empty. -/
def split (tree : SplayTree) (rank : Nat) : Option (SplayTree × SplayTree) :=
  match (orderStatisticZeroBasedRanking tree rank).2 with
  | .nil => none
  | .node i v p l r _ =>
    let root1 := PTree.node i v p l .nil (sz l + 0 + 1)
    let tree1 : SplayTree := { root := root1, size := sz root1 }
    match r with
    | .nil => some (tree1, emptyTree)
    | root2 => some (tree1, { root := setParent none root2, size := sz root2 })

/-- `process(tree, i, j, k)` (lines 452-467), the cut-and-paste
orchestrator.  The local handles `left`, `middle`, `right` start as null
pointers, modelled by `emptyTree` (a null handle and an empty tree are
treated alike by `merge`, the only consumer; passing either to `split` is a
null dereference, modelled `none`). -/
def process (tree : SplayTree) (i j k : Nat) : Option SplayTree :=
  match split tree j with
  | none => none
  | some (middle0, right0) =>
    match (if i > 0 then split middle0 (i - 1) else some (emptyTree, middle0)) with
    | none => none
    | some (left1, middle1) =>
      let left2 := merge left1 right0
      match (if k > 0 then split left2 (k - 1) else some (emptyTree, left2)) with
      | none => none
      | some (left3, right3) => some (merge (merge left3 middle1) right3)

/-! ## Basic lemmas about the node-level helpers -/

theorem sz_setParent (p : Option Nat) (t : PTree) : sz (setParent p t) = sz t := by
  cases t <;> simp [setParent, sz]

theorem inOrder_setParent (p : Option Nat) (t : PTree) :
    inOrder (setParent p t) = inOrder t := by
  cases t <;> simp [setParent, inOrder]

theorem cnt_setParent (p : Option Nat) (t : PTree) : cnt (setParent p t) = cnt t := by
  cases t <;> simp [setParent, cnt]

theorem sizeOk_setParent (p : Option Nat) (t : PTree) :
    sizeOk (setParent p t) = sizeOk t := by
  cases t <;> simp [setParent, sizeOk]

theorem parentIs_setParent (p q : Option Nat) (t : PTree) (h : parentIs q t) :
    parentIs p (setParent p t) := by
  cases t with
  | nil => simp [setParent, parentIs]
  | node i v p0 l r s =>
    simp only [setParent, parentIs, Bool.and_eq_true, beq_iff_eq] at h ⊢
    exact ⟨⟨trivial, h.1.2⟩, h.2⟩

theorem setParent_nil_iff (p : Option Nat) (t : PTree) :
    setParent p t = .nil ↔ t = .nil := by
  cases t <;> simp [setParent]

theorem cnt_eq_length (t : PTree) : cnt t = (inOrder t).length := by
  induction t with
  | nil => simp [cnt, inOrder]
  | node i v p l r s ihl ihr => simp [cnt, inOrder, ihl, ihr]; omega

theorem sz_eq_cnt (t : PTree) (h : sizeOk t) : sz t = cnt t := by
  induction t with
  | nil => simp [sz, cnt]
  | node i v p l r s ihl ihr =>
    simp only [sizeOk, Bool.and_eq_true, beq_iff_eq] at h
    simp [sz, cnt, ← ihl h.1.2, ← ihr h.2, h.1.1]

theorem inOrder_eq_nil_iff (t : PTree) : inOrder t = [] ↔ t = .nil := by
  cases t <;> simp [inOrder]

theorem inOrder_plug (f : Frame) (t : PTree) :
    inOrder (plug f t) =
      match f.dir with
      | .left => inOrder t ++ f.value :: inOrder f.other
      | .right => inOrder f.other ++ f.value :: inOrder t := by
  cases h : f.dir <;> simp [plug, h, inOrder]

theorem inOrder_plugCtx (c : Ctx) : ∀ t : PTree,
    inOrder (plugCtx t c) = ctxPre c ++ inOrder t ++ ctxPost c := by
  induction c with
  | nil => intro t; simp [plugCtx, ctxPre, ctxPost]
  | cons f c ih =>
    intro t
    obtain ⟨d, fi, fv, fp, fo, fs⟩ := f
    cases d <;> simp [plugCtx, ih, ctxPre, ctxPost, plug, inOrder]

theorem ctxPre_append (c1 c2 : Ctx) : ctxPre (c1 ++ c2) = ctxPre c2 ++ ctxPre c1 := by
  induction c1 with
  | nil => simp [ctxPre]
  | cons f c1 ih =>
    obtain ⟨d, fi, fv, fp, fo, fs⟩ := f
    cases d <;> simp [ctxPre, ih]

theorem ctxPost_append (c1 c2 : Ctx) : ctxPost (c1 ++ c2) = ctxPost c1 ++ ctxPost c2 := by
  induction c1 with
  | nil => simp [ctxPost]
  | cons f c1 ih =>
    obtain ⟨d, fi, fv, fp, fo, fs⟩ := f
    cases d <;> simp [ctxPost, ih]

/-! ## The splay loop

The statements below are phrased for a focused subtree `node i v p l r s`
with parent chain `c`: the splayed result keeps the focused node's identity
at the root, its left part collects exactly the in-order characters that
precede the node in the whole tree and its right part those that follow, and
well-formedness (sizes, parent back-references) is restored by the
rotations' recomputation. -/

theorem sizeOk_node (i : Nat) (v : Char) (p : Option Nat) (l r : PTree) (s : Nat)
    (h : sizeOk (.node i v p l r s) = true) :
    s = sz l + sz r + 1 ∧ sizeOk l = true ∧ sizeOk r = true := by
  simp only [sizeOk, Bool.and_eq_true, beq_iff_eq] at h
  tauto

theorem parentIs_node (q : Option Nat) (i : Nat) (v : Char) (p : Option Nat)
    (l r : PTree) (s : Nat) (h : parentIs q (.node i v p l r s) = true) :
    p = q ∧ parentIs (some i) l = true ∧ parentIs (some i) r = true := by
  simp only [parentIs, Bool.and_eq_true, beq_iff_eq] at h
  tauto

theorem ctxOk_cons (f : Frame) (c : Ctx) (h : ctxOk (f :: c) = true) :
    sizeOk f.other = true ∧ parentIs (some f.id) f.other = true ∧
      f.parent = ctxHeadId c ∧ ctxOk c = true := by
  simp only [ctxOk, Bool.and_eq_true, beq_iff_eq] at h
  tauto

/-- Effect of one zig iteration on the focused node. -/
theorem splayZig_full (f : Frame) (i : Nat) (v : Char) (p : Option Nat)
    (l r : PTree) (s : Nat) :
    ∃ q n L R, splayZig (.node i v p l r s) f = .node i v q L R n ∧
      q = f.parent ∧
      inOrder L = ctxPre [f] ++ inOrder l ∧
      inOrder R = inOrder r ++ ctxPost [f] ∧
      (sizeOk l = true → sizeOk r = true → sizeOk f.other = true →
        sizeOk (PTree.node i v q L R n) = true) ∧
      (parentIs (some f.id) (.node i v p l r s) = true →
        parentIs (some f.id) f.other = true →
        parentIs f.parent (.node i v q L R n) = true) := by
  obtain ⟨d, fi, fv, fp, fo, fs⟩ := f
  cases d
  case left =>
    refine ⟨_, _, _, _, rfl, rfl, ?_, ?_, ?_, ?_⟩
    · simp [ctxPre]
    · simp [ctxPost, inOrder, inOrder_setParent]
    · intro hl hr ho
      simp [sizeOk, sz_setParent, sizeOk_setParent, hl, hr, ho]
    · intro ht ho
      obtain ⟨-, htl, htr⟩ := parentIs_node _ _ _ _ _ _ _ ht
      simp [parentIs, htl, ho, parentIs_setParent (some fi) (some i) r htr]
  case right =>
    refine ⟨_, _, _, _, rfl, rfl, ?_, ?_, ?_, ?_⟩
    · simp [ctxPre, inOrder, inOrder_setParent]
    · simp [ctxPost]
    · intro hl hr ho
      simp [sizeOk, sz_setParent, sizeOk_setParent, hl, hr, ho]
    · intro ht ho
      obtain ⟨-, htl, htr⟩ := parentIs_node _ _ _ _ _ _ _ ht
      simp [parentIs, htr, ho, parentIs_setParent (some fi) (some i) l htl]

/-- Effect of one zig-zig / zig-zag iteration on the focused node. -/
theorem splayDouble_full (f1 f2 : Frame) (i : Nat) (v : Char) (p : Option Nat)
    (l r : PTree) (s : Nat) :
    ∃ q n L R, splayDouble (.node i v p l r s) f1 f2 = .node i v q L R n ∧
      q = f2.parent ∧
      inOrder L = ctxPre [f1, f2] ++ inOrder l ∧
      inOrder R = inOrder r ++ ctxPost [f1, f2] ∧
      (sizeOk l = true → sizeOk r = true → sizeOk f1.other = true →
        sizeOk f2.other = true → sizeOk (PTree.node i v q L R n) = true) ∧
      (parentIs (some f1.id) (.node i v p l r s) = true →
        parentIs (some f1.id) f1.other = true →
        parentIs (some f2.id) f2.other = true →
        parentIs f2.parent (.node i v q L R n) = true) := by
  obtain ⟨d1, i1, v1, p1, o1, s1⟩ := f1
  obtain ⟨d2, i2, v2, p2, o2, s2⟩ := f2
  cases d1 <;> cases d2
  case left.left =>
    refine ⟨_, _, _, _, rfl, rfl, ?_, ?_, ?_, ?_⟩
    · simp [ctxPre]
    · simp [ctxPost, inOrder, inOrder_setParent]
    · intro hl hr h1 h2
      simp [sizeOk, sz_setParent, sizeOk_setParent, hl, hr, h1, h2]
    · intro ht h1 h2
      obtain ⟨-, htl, htr⟩ := parentIs_node _ _ _ _ _ _ _ ht
      simp [parentIs, htl, h2, parentIs_setParent (some i1) (some i) r htr,
        parentIs_setParent (some i2) (some i1) o1 h1]
  case left.right =>
    refine ⟨_, _, _, _, rfl, rfl, ?_, ?_, ?_, ?_⟩
    · simp [ctxPre, inOrder, inOrder_setParent]
    · simp [ctxPost, inOrder, inOrder_setParent]
    · intro hl hr h1 h2
      simp [sizeOk, sz_setParent, sizeOk_setParent, hl, hr, h1, h2]
    · intro ht h1 h2
      obtain ⟨-, htl, htr⟩ := parentIs_node _ _ _ _ _ _ _ ht
      simp [parentIs, h1, h2, parentIs_setParent (some i1) (some i) r htr,
        parentIs_setParent (some i2) (some i) l htl]
  case right.right =>
    refine ⟨_, _, _, _, rfl, rfl, ?_, ?_, ?_, ?_⟩
    · simp [ctxPre, inOrder, inOrder_setParent]
    · simp [ctxPost]
    · intro hl hr h1 h2
      simp [sizeOk, sz_setParent, sizeOk_setParent, hl, hr, h1, h2]
    · intro ht h1 h2
      obtain ⟨-, htl, htr⟩ := parentIs_node _ _ _ _ _ _ _ ht
      simp [parentIs, htr, h2, parentIs_setParent (some i1) (some i) l htl,
        parentIs_setParent (some i2) (some i1) o1 h1]
  case right.left =>
    refine ⟨_, _, _, _, rfl, rfl, ?_, ?_, ?_, ?_⟩
    · simp [ctxPre, inOrder, inOrder_setParent]
    · simp [ctxPost, inOrder, inOrder_setParent]
    · intro hl hr h1 h2
      simp [sizeOk, sz_setParent, sizeOk_setParent, hl, hr, h1, h2]
    · intro ht h1 h2
      obtain ⟨-, htl, htr⟩ := parentIs_node _ _ _ _ _ _ _ ht
      simp [parentIs, h1, h2, parentIs_setParent (some i1) (some i) l htl,
        parentIs_setParent (some i2) (some i) r htr]

/-- Master lemma for the splay loop: the focused node ends at the root, its
final left/right parts carry exactly the preceding/following characters of
the whole tree, and sizes and parent back-references are consistent in the
result whenever they were consistent in the input configuration. -/
theorem splayLoop_master : ∀ (c : Ctx) (i : Nat) (v : Char) (p : Option Nat)
    (l r : PTree) (s : Nat),
    ∃ q n L R, splayLoop (.node i v p l r s) c = .node i v q L R n ∧
      inOrder L = ctxPre c ++ inOrder l ∧
      inOrder R = inOrder r ++ ctxPost c ∧
      (sizeOk (.node i v p l r s) = true → ctxOk c = true →
        sizeOk (PTree.node i v q L R n) = true) ∧
      (parentIs (ctxHeadId c) (.node i v p l r s) = true → ctxOk c = true →
        parentIs none (PTree.node i v q L R n) = true)
  | [] => by
    intro i v p l r s
    refine ⟨p, s, l, r, rfl, by simp [ctxPre], by simp [ctxPost], fun h _ => h, fun h _ => h⟩
  | [f] => by
    intro i v p l r s
    obtain ⟨q, n, L, R, hEq, hq, hL, hR, hSz, hPar⟩ := splayZig_full f i v p l r s
    subst hq
    refine ⟨f.parent, n, L, R, hEq, hL, hR, ?_, ?_⟩
    · intro hsz hctx
      obtain ⟨-, hszl, hszr⟩ := sizeOk_node _ _ _ _ _ _ hsz
      obtain ⟨ho1, -, -, -⟩ := ctxOk_cons _ _ hctx
      exact hSz hszl hszr ho1
    · intro hpar hctx
      obtain ⟨-, ho2, hfp, -⟩ := ctxOk_cons _ _ hctx
      have := hPar hpar ho2
      rw [hfp] at this ⊢
      exact this
  | f1 :: f2 :: rest => by
    intro i v p l r s
    obtain ⟨q2, n2, L2, R2, hEq, hq2, hL2, hR2, hSz2, hPar2⟩ :=
      splayDouble_full f1 f2 i v p l r s
    have hsplit : (f1 :: f2 :: rest : Ctx) = [f1, f2] ++ rest := rfl
    obtain ⟨q, n, L, R, hEq3, hL, hR, hSz, hPar⟩ := splayLoop_master rest i v q2 L2 R2 n2
    refine ⟨q, n, L, R, ?_, ?_, ?_, ?_, ?_⟩
    · show splayLoop (splayDouble (.node i v p l r s) f1 f2) rest = _
      rw [hEq, hEq3]
    · rw [hL, hL2, hsplit, ctxPre_append, List.append_assoc]
    · rw [hR, hR2, hsplit, ctxPost_append, List.append_assoc]
    · intro hsz hctx
      obtain ⟨-, hszl, hszr⟩ := sizeOk_node _ _ _ _ _ _ hsz
      obtain ⟨ho1, -, -, hctx2⟩ := ctxOk_cons _ _ hctx
      obtain ⟨ho2, -, -, hrest⟩ := ctxOk_cons _ _ hctx2
      exact hSz (hSz2 hszl hszr ho1 ho2) hrest
    · intro hpar hctx
      obtain ⟨-, hp1, hf1, hctx2⟩ := ctxOk_cons _ _ hctx
      obtain ⟨-, hp2, hf2, hrest⟩ := ctxOk_cons _ _ hctx2
      have h1 : parentIs (some f1.id) (.node i v p l r s) = true := hpar
      have hmid := hPar2 h1 hp1 hp2
      rw [← hq2] at hmid
      have hq3 : q2 = ctxHeadId rest := hq2.trans hf2
      have hmid2 : parentIs (ctxHeadId rest) (PTree.node i v q2 L2 R2 n2) = true := by
        rw [← hq3]; exact hmid
      exact hPar hmid2 hrest

/-! ## The descent loops -/

theorem wfS_parts (tree : SplayTree) (h : wfS tree = true) :
    sizeOk tree.root = true ∧ parentIs none tree.root = true ∧
      tree.size = sz tree.root := by
  simp only [wfS, wfT, Bool.and_eq_true, beq_iff_eq] at h
  tauto

theorem osDescend_plug (t : PTree) : ∀ (k : Nat) (c : Ctx),
    plugCtx (osDescend t k c).2 (osDescend t k c).1 = plugCtx t c := by
  induction t with
  | nil => intro k c; simp [osDescend]
  | node i v p l r s ihl ihr =>
    intro k c
    simp only [osDescend]
    by_cases h1 : k = sz l
    · rw [if_pos h1]
    · by_cases h2 : k < sz l
      · rw [if_neg h1, if_pos h2]
        by_cases hl : l = PTree.nil
        · rw [if_pos hl]
        · rw [if_neg hl, ihl]
          simp [plugCtx, plug]
      · rw [if_neg h1, if_neg h2]
        by_cases hr : r = PTree.nil
        · rw [if_pos hr]
        · rw [if_neg hr, ihr]
          simp [plugCtx, plug]

theorem osDescend_ne_nil (t : PTree) : ∀ (k : Nat) (c : Ctx), t ≠ .nil →
    (osDescend t k c).2 ≠ .nil := by
  induction t with
  | nil => intro k c h; exact absurd rfl h
  | node i v p l r s ihl ihr =>
    intro k c _
    simp only [osDescend]
    by_cases h1 : k = sz l
    · rw [if_pos h1]; simp
    · by_cases h2 : k < sz l
      · rw [if_neg h1, if_pos h2]
        by_cases hl : l = PTree.nil
        · rw [if_pos hl]; simp
        · rw [if_neg hl]; exact ihl _ _ hl
      · rw [if_neg h1, if_neg h2]
        by_cases hr : r = PTree.nil
        · rw [if_pos hr]; simp
        · rw [if_neg hr]; exact ihr _ _ hr

theorem osDescend_inv (t : PTree) : ∀ (k : Nat) (c : Ctx),
    sizeOk t = true → parentIs (ctxHeadId c) t = true → ctxOk c = true →
    sizeOk (osDescend t k c).2 = true ∧
      parentIs (ctxHeadId (osDescend t k c).1) (osDescend t k c).2 = true ∧
      ctxOk (osDescend t k c).1 = true := by
  induction t with
  | nil => intro k c h1 h2 h3; simp only [osDescend]; exact ⟨rfl, by simp [parentIs], h3⟩
  | node i v p l r s ihl ihr =>
    intro k c hsz hpar hctx
    obtain ⟨-, hszl, hszr⟩ := sizeOk_node _ _ _ _ _ _ hsz
    obtain ⟨hp, hpl, hpr⟩ := parentIs_node _ _ _ _ _ _ _ hpar
    simp only [osDescend]
    by_cases h1 : k = sz l
    · rw [if_pos h1]; exact ⟨hsz, hpar, hctx⟩
    · by_cases h2 : k < sz l
      · rw [if_neg h1, if_pos h2]
        by_cases hl : l = PTree.nil
        · rw [if_pos hl]; exact ⟨hsz, hpar, hctx⟩
        · rw [if_neg hl]
          exact ihl _ _ hszl hpl (by simp [ctxOk, ctxHeadId, hszr, hpr, hp, hctx])
      · rw [if_neg h1, if_neg h2]
        by_cases hr : r = PTree.nil
        · rw [if_pos hr]; exact ⟨hsz, hpar, hctx⟩
        · rw [if_neg hr]
          exact ihr _ _ hszr hpr (by simp [ctxOk, ctxHeadId, hszl, hpl, hp, hctx])

theorem osDescend_rank (t : PTree) : ∀ (k : Nat) (c : Ctx),
    sizeOk t = true → k < cnt t →
    ∃ i v p l r s, (osDescend t k c).2 = .node i v p l r s ∧
      (ctxPre (osDescend t k c).1).length + cnt l = (ctxPre c).length + k := by
  induction t with
  | nil => intro k c _ hk; simp [cnt] at hk
  | node i v p l r s ihl ihr =>
    intro k c hsz hk
    obtain ⟨-, hszl, hszr⟩ := sizeOk_node _ _ _ _ _ _ hsz
    have hszl2 : sz l = cnt l := sz_eq_cnt l hszl
    simp only [osDescend]
    by_cases h1 : k = sz l
    · rw [if_pos h1]
      refine ⟨i, v, p, l, r, s, rfl, ?_⟩
      show (ctxPre c).length + cnt l = (ctxPre c).length + k
      omega
    · by_cases h2 : k < sz l
      · rw [if_neg h1, if_pos h2]
        have hl : l ≠ PTree.nil := by
          intro h
          rw [h] at h2
          simp [sz] at h2
        rw [if_neg hl]
        obtain ⟨i2, v2, p2, l2, r2, s2, hEq, hLen⟩ := ihl k
          ({ dir := .left, id := i, value := v, parent := p, other := r, size := s } :: c)
          hszl (by omega)
        refine ⟨i2, v2, p2, l2, r2, s2, hEq, ?_⟩
        rw [hLen]
        simp [ctxPre]
      · have hr : r ≠ PTree.nil := by
          intro h
          subst h
          simp only [cnt] at hk
          omega
        rw [if_neg h1, if_neg h2, if_neg hr]
        have hkr : k - sz l - 1 < cnt r := by
          simp only [cnt] at hk
          omega
        obtain ⟨i2, v2, p2, l2, r2, s2, hEq, hLen⟩ := ihr (k - sz l - 1)
          ({ dir := .right, id := i, value := v, parent := p, other := l, size := s } :: c)
          hszr hkr
        refine ⟨i2, v2, p2, l2, r2, s2, hEq, ?_⟩
        rw [hLen]
        simp only [ctxPre, List.length_append, List.length_cons,
          List.length_nil, ← cnt_eq_length]
        omega

theorem maxDescend_plug (t : PTree) : ∀ (c : Ctx),
    plugCtx (maxDescend t c).2 (maxDescend t c).1 = plugCtx t c := by
  induction t with
  | nil => intro c; simp [maxDescend]
  | node i v p l r s ihl ihr =>
    intro c
    simp only [maxDescend]
    by_cases hr : r = PTree.nil
    · rw [if_pos hr]
    · rw [if_neg hr, ihr]
      simp [plugCtx, plug]

theorem maxDescend_inv (t : PTree) : ∀ (c : Ctx),
    sizeOk t = true → parentIs (ctxHeadId c) t = true → ctxOk c = true →
    sizeOk (maxDescend t c).2 = true ∧
      parentIs (ctxHeadId (maxDescend t c).1) (maxDescend t c).2 = true ∧
      ctxOk (maxDescend t c).1 = true := by
  induction t with
  | nil => intro c h1 h2 h3; simp only [maxDescend]; exact ⟨rfl, by simp [parentIs], h3⟩
  | node i v p l r s ihl ihr =>
    intro c hsz hpar hctx
    obtain ⟨-, hszl, hszr⟩ := sizeOk_node _ _ _ _ _ _ hsz
    obtain ⟨hp, hpl, hpr⟩ := parentIs_node _ _ _ _ _ _ _ hpar
    simp only [maxDescend]
    by_cases hr : r = PTree.nil
    · rw [if_pos hr]; exact ⟨hsz, hpar, hctx⟩
    · rw [if_neg hr]
      exact ihr _ hszr hpr (by simp [ctxOk, ctxHeadId, hszl, hpl, hp, hctx])

theorem maxDescend_shape (t : PTree) : ∀ (c : Ctx), t ≠ .nil →
    ∃ i v p l s, (maxDescend t c).2 = .node i v p l .nil s := by
  induction t with
  | nil => intro c h; exact absurd rfl h
  | node i v p l r s ihl ihr =>
    intro c _
    simp only [maxDescend]
    by_cases hr : r = PTree.nil
    · rw [if_pos hr, hr]
      exact ⟨i, v, p, l, s, rfl⟩
    · rw [if_neg hr]
      exact ihr _ hr

theorem maxDescend_post (t : PTree) : ∀ (c : Ctx),
    ctxPost (maxDescend t c).1 = ctxPost c := by
  induction t with
  | nil => intro c; simp [maxDescend]
  | node i v p l r s ihl ihr =>
    intro c
    simp only [maxDescend]
    by_cases hr : r = PTree.nil
    · rw [if_pos hr]
    · rw [if_neg hr, ihr]
      simp [ctxPost]

theorem ids_plug (f : Frame) (t : PTree) (a : Nat) (h : a ∈ ids t) :
    a ∈ ids (plug f t) := by
  obtain ⟨d, fi, fv, fp, fo, fs⟩ := f
  cases d <;> simp [plug, ids] <;> tauto

theorem ids_plugCtx (c : Ctx) : ∀ (t : PTree) (a : Nat), a ∈ ids t →
    a ∈ ids (plugCtx t c) := by
  induction c with
  | nil => intro t a h; exact h
  | cons f c ih => intro t a h; exact ih _ _ (ids_plug f t a h)

/-! ## The locate operation -/

/-- Master specification of `orderStatisticZeroBasedRanking` on a
well-formed tree with an in-range rank: the operation returns the node that
is now the root; that node carries the k-th in-order character, its left
subtree carries exactly the first `k` characters, its right subtree the
rest, and the tree stays well-formed with its cached size unchanged. -/
theorem orderStat_master (tree : SplayTree) (k : Nat)
    (hwf : wfS tree = true) (hk : k < tree.size) :
    ∃ i v L R n,
      (orderStatisticZeroBasedRanking tree k).1.root = .node i v none L R n ∧
      (orderStatisticZeroBasedRanking tree k).2 = .node i v none L R n ∧
      (orderStatisticZeroBasedRanking tree k).1.size = tree.size ∧
      inOrder L = (inOrder tree.root).take k ∧
      v :: inOrder R = (inOrder tree.root).drop k ∧
      wfS (orderStatisticZeroBasedRanking tree k).1 = true := by
  obtain ⟨hsz, hpar, hsize⟩ := wfS_parts tree hwf
  have hkc : k < cnt tree.root := by
    rw [← sz_eq_cnt _ hsz, ← hsize]; exact hk
  cases htr : tree.root with
  | nil => rw [htr] at hkc; simp [cnt] at hkc
  | node i0 v0 p0 l0 r0 s0 =>
    rw [htr] at hsz hpar hsize hkc
    obtain ⟨fi, fv, fp, fl, fr, fs, hF, hLen⟩ :=
      osDescend_rank (.node i0 v0 p0 l0 r0 s0) k [] hsz hkc
    obtain ⟨hFsz, hFpar, hFctx⟩ := osDescend_inv (.node i0 v0 p0 l0 r0 s0) k []
      hsz hpar rfl
    have hPlug := osDescend_plug (.node i0 v0 p0 l0 r0 s0) k []
    rw [hF] at hFsz hFpar hPlug
    obtain ⟨q, n, L, R, hEq, hL, hR, hSz, hPar⟩ :=
      splayLoop_master (osDescend (.node i0 v0 p0 l0 r0 s0) k []).1 fi fv fp fl fr fs
    have hparres := hPar hFpar hFctx
    have hszres := hSz hFsz hFctx
    obtain ⟨hqnone, -, -⟩ := parentIs_node _ _ _ _ _ _ _ hparres
    -- the in-order sequence of the original tree, decomposed at the found node
    have hSeq : inOrder (PTree.node i0 v0 p0 l0 r0 s0) =
        (ctxPre (osDescend (.node i0 v0 p0 l0 r0 s0) k []).1 ++ inOrder fl) ++
          (fv :: (inOrder fr ++
            ctxPost (osDescend (.node i0 v0 p0 l0 r0 s0) k []).1)) := by
      conv_lhs => rw [show inOrder (PTree.node i0 v0 p0 l0 r0 s0) =
        inOrder (plugCtx (.node fi fv fp fl fr fs)
          (osDescend (.node i0 v0 p0 l0 r0 s0) k []).1) from by rw [hPlug]; simp [plugCtx]]
      rw [inOrder_plugCtx]
      simp [inOrder]
    have hkLen : (ctxPre (osDescend (.node i0 v0 p0 l0 r0 s0) k []).1 ++
        inOrder fl).length = k := by
      simp only [List.length_append, ← cnt_eq_length]
      simp only [ctxPre, List.length_nil] at hLen
      omega
    have hTake : (inOrder (PTree.node i0 v0 p0 l0 r0 s0)).take k =
        ctxPre (osDescend (.node i0 v0 p0 l0 r0 s0) k []).1 ++ inOrder fl := by
      rw [hSeq, List.take_left' hkLen]
    have hDrop : (inOrder (PTree.node i0 v0 p0 l0 r0 s0)).drop k =
        fv :: (inOrder fr ++ ctxPost (osDescend (.node i0 v0 p0 l0 r0 s0) k []).1) := by
      rw [hSeq, List.drop_left' hkLen]
    refine ⟨fi, fv, L, R, n, ?_, ?_, ?_, ?_, ?_, ?_⟩
    · simp only [orderStatisticZeroBasedRanking, htr]
      rw [hF, hEq, hqnone]
    · simp only [orderStatisticZeroBasedRanking, htr]
      rw [hF, hEq, hqnone]
    · simp only [orderStatisticZeroBasedRanking, htr]
    · rw [hTake, hL]
    · rw [hDrop, hR]
    · have hroot : (orderStatisticZeroBasedRanking tree k).1.root =
          .node fi fv none L R n := by
        simp only [orderStatisticZeroBasedRanking, htr]
        rw [hF, hEq, hqnone]
      have hsizeres : (orderStatisticZeroBasedRanking tree k).1.size = tree.size := by
        simp only [orderStatisticZeroBasedRanking, htr]
      rw [hqnone] at hszres hparres
      -- the splayed tree has the same number of nodes as the original
      have hcnt : cnt (PTree.node fi fv none L R n) =
          cnt (PTree.node i0 v0 p0 l0 r0 s0) := by
        rw [cnt_eq_length, cnt_eq_length, hSeq]
        simp [inOrder, hL, hR]
      simp only [wfS, wfT, hroot, hsizeres, Bool.and_eq_true, beq_iff_eq]
      refine ⟨⟨hszres, hparres⟩, ?_⟩
      rw [sz_eq_cnt _ hszres, hcnt, ← sz_eq_cnt _ hsz, ← hsize]

/-- Total-safety specification of `orderStatisticZeroBasedRanking` on a
well-formed non-empty tree, for an arbitrary (possibly out-of-range) rank:
the operation always returns a non-null node of the tree, that node is the
new root, and the tree keeps its sequence, its well-formedness and its
cached size. -/
theorem orderStat_total (tree : SplayTree) (k : Nat)
    (hwf : wfS tree = true) (hne : tree.root ≠ .nil) :
    ∃ i v L R n,
      (orderStatisticZeroBasedRanking tree k).1.root = .node i v none L R n ∧
      (orderStatisticZeroBasedRanking tree k).2 = .node i v none L R n ∧
      (orderStatisticZeroBasedRanking tree k).1.size = tree.size ∧
      inOrder (orderStatisticZeroBasedRanking tree k).1.root = inOrder tree.root ∧
      wfS (orderStatisticZeroBasedRanking tree k).1 = true ∧
      i ∈ ids tree.root := by
  obtain ⟨hsz, hpar, hsize⟩ := wfS_parts tree hwf
  cases htr : tree.root with
  | nil => exact absurd htr hne
  | node i0 v0 p0 l0 r0 s0 =>
    rw [htr] at hsz hpar hsize
    have hFne := osDescend_ne_nil (.node i0 v0 p0 l0 r0 s0) k [] (by simp)
    obtain ⟨hFsz, hFpar, hFctx⟩ := osDescend_inv (.node i0 v0 p0 l0 r0 s0) k []
      hsz hpar rfl
    have hPlug := osDescend_plug (.node i0 v0 p0 l0 r0 s0) k []
    cases hF : (osDescend (.node i0 v0 p0 l0 r0 s0) k []).2 with
    | nil => exact absurd hF hFne
    | node fi fv fp fl fr fs =>
      rw [hF] at hFsz hFpar hPlug
      obtain ⟨q, n, L, R, hEq, hL, hR, hSz, hPar⟩ :=
        splayLoop_master (osDescend (.node i0 v0 p0 l0 r0 s0) k []).1 fi fv fp fl fr fs
      have hparres := hPar hFpar hFctx
      have hszres := hSz hFsz hFctx
      obtain ⟨hqnone, -, -⟩ := parentIs_node _ _ _ _ _ _ _ hparres
      have hSeq : inOrder (PTree.node i0 v0 p0 l0 r0 s0) =
          ctxPre (osDescend (.node i0 v0 p0 l0 r0 s0) k []).1 ++
            (inOrder fl ++ fv :: inOrder fr) ++
            ctxPost (osDescend (.node i0 v0 p0 l0 r0 s0) k []).1 := by
        conv_lhs => rw [show inOrder (PTree.node i0 v0 p0 l0 r0 s0) =
          inOrder (plugCtx (.node fi fv fp fl fr fs)
            (osDescend (.node i0 v0 p0 l0 r0 s0) k []).1) from by
              rw [hPlug]; simp [plugCtx]]
        rw [inOrder_plugCtx]
        simp [inOrder]
      have hroot : (orderStatisticZeroBasedRanking tree k).1.root =
          .node fi fv none L R n := by
        simp only [orderStatisticZeroBasedRanking, htr]
        rw [hF, hEq, hqnone]
      have hInres : inOrder (PTree.node fi fv none L R n) =
          inOrder (PTree.node i0 v0 p0 l0 r0 s0) := by
        rw [hSeq]
        simp only [inOrder, hL, hR]
        simp
      refine ⟨fi, fv, L, R, n, hroot, ?_, ?_, ?_, ?_, ?_⟩
      · simp only [orderStatisticZeroBasedRanking, htr]
        rw [hF, hEq, hqnone]
      · simp only [orderStatisticZeroBasedRanking, htr]
      · rw [hroot, hInres]
      · have hsizeres : (orderStatisticZeroBasedRanking tree k).1.size = tree.size := by
          simp only [orderStatisticZeroBasedRanking, htr]
        rw [hqnone] at hszres hparres
        have hcnt : cnt (PTree.node fi fv none L R n) =
            cnt (PTree.node i0 v0 p0 l0 r0 s0) := by
          rw [cnt_eq_length, cnt_eq_length, hInres]
        simp only [wfS, wfT, hroot, hsizeres, Bool.and_eq_true, beq_iff_eq]
        refine ⟨⟨hszres, hparres⟩, ?_⟩
        rw [sz_eq_cnt _ hszres, hcnt, ← sz_eq_cnt _ hsz, ← hsize]
      · have : fi ∈ ids (PTree.node fi fv fp fl fr fs) := by simp [ids]
        have hmem := ids_plugCtx (osDescend (.node i0 v0 p0 l0 r0 s0) k []).1
          (PTree.node fi fv fp fl fr fs) fi this
        rw [hPlug] at hmem
        simpa [plugCtx] using hmem

/-! ## Split and merge -/

theorem take_drop_split (l t : List Char) (a : Char) (n : Nat) (h : l.drop n = a :: t) :
    l.take (n + 1) = l.take n ++ [a] ∧ l.drop (n + 1) = t := by
  have hn : n < l.length := by
    by_contra hc
    rw [List.drop_eq_nil_of_le (by omega)] at h
    exact List.noConfusion h
  constructor
  · rw [List.take_succ]
    have : l[n]? = some a := by
      rw [← List.head?_drop, h]
      rfl
    rw [this]
    rfl
  · have : l.drop (n + 1) = (l.drop n).drop 1 := by
      rw [List.drop_drop]
    rw [this, h]
    rfl

/-- Master specification of `split` on a well-formed tree with an in-range
rank: it succeeds, the left tree carries positions `0..rank`, the right tree
positions `rank+1..end`, both results are well-formed, and their sizes add
up (the right tree being empty exactly at `rank = size - 1`). -/
theorem split_spec (tree : SplayTree) (rank : Nat)
    (hwf : wfS tree = true) (hrank : rank < tree.size) :
    ∃ t1 t2, split tree rank = some (t1, t2) ∧
      wfS t1 = true ∧ wfS t2 = true ∧
      inOrder t1.root = (inOrder tree.root).take (rank + 1) ∧
      inOrder t2.root = (inOrder tree.root).drop (rank + 1) ∧
      t1.size = rank + 1 ∧ t2.size = tree.size - (rank + 1) := by
  obtain ⟨i, v, L, R, n, hroot, hnode, hsizeres, hTake, hDrop, hwfres⟩ :=
    orderStat_master tree rank hwf hrank
  obtain ⟨hszres, hparres, hcache⟩ := wfS_parts _ hwfres
  rw [hroot] at hszres hparres
  obtain ⟨-, hszL, hszR⟩ := sizeOk_node _ _ _ _ _ _ hszres
  obtain ⟨-, hpL, hpR⟩ := parentIs_node _ _ _ _ _ _ _ hparres
  obtain ⟨hTake1, hDrop1⟩ := take_drop_split _ _ _ _ hDrop.symm
  have hlen : (inOrder tree.root).length = tree.size := by
    obtain ⟨hsz0, -, hsize0⟩ := wfS_parts tree hwf
    rw [← cnt_eq_length, ← sz_eq_cnt _ hsz0, hsize0]
  have hlenTake : ((inOrder tree.root).take rank).length = rank := by
    rw [List.length_take]
    omega
  have hszL2 : sz L = rank := by
    rw [sz_eq_cnt _ hszL, cnt_eq_length, hTake, hlenTake]
  have hwf1 : wfS ⟨PTree.node i v none L PTree.nil (sz L + 0 + 1), sz L + 0 + 1⟩ = true := by
    simp [wfS, wfT, sizeOk, sz, parentIs, hszL, hpL]
  have hInL : inOrder (PTree.node i v none L PTree.nil (sz L + 0 + 1)) =
      (inOrder tree.root).take (rank + 1) := by
    simp only [inOrder, hTake, hTake1]
  cases hR2 : R with
  | nil =>
    rw [hR2] at hnode hDrop1 hDrop
    have hres : split tree rank =
        some (⟨PTree.node i v none L PTree.nil (sz L + 0 + 1), sz L + 0 + 1⟩, emptyTree) := by
      simp [split, hnode, sz]
    refine ⟨_, _, hres, hwf1, rfl, hInL, ?_, ?_, ?_⟩
    · show inOrder PTree.nil = _
      rw [hDrop1]
    · show sz L + 0 + 1 = rank + 1
      omega
    · show (0 : Nat) = tree.size - (rank + 1)
      have hlend := congrArg List.length hDrop1
      rw [List.length_drop] at hlend
      simp [inOrder] at hlend
      omega
  | node ri rv rp rl rr rs =>
    rw [hR2] at hnode hDrop1 hszR hpR
    obtain ⟨e1, e2, e3⟩ := sizeOk_node _ _ _ _ _ _ hszR
    obtain ⟨-, epl, epr⟩ := parentIs_node _ _ _ _ _ _ _ hpR
    have hres : split tree rank =
        some (⟨PTree.node i v none L PTree.nil (sz L + 0 + 1), sz L + 0 + 1⟩,
              ⟨PTree.node ri rv none rl rr rs, rs⟩) := by
      simp [split, hnode, setParent, sz]
    refine ⟨_, _, hres, hwf1, ?_, hInL, ?_, ?_, ?_⟩
    · simp only [wfS, wfT, Bool.and_eq_true, beq_iff_eq]
      exact ⟨⟨by simp [sizeOk, e1, e2, e3], by simp [parentIs, epl, epr]⟩, by simp [sz]⟩
    · show inOrder (PTree.node ri rv none rl rr rs) = _
      rw [hDrop1]
      simp [inOrder]
    · show sz L + 0 + 1 = rank + 1
      omega
    · show rs = tree.size - (rank + 1)
      have hlend := congrArg List.length hDrop1
      rw [List.length_drop] at hlend
      have hcntr : rs = (inOrder (PTree.node ri rv rp rl rr rs)).length := by
        rw [← cnt_eq_length, ← sz_eq_cnt _ hszR]
        rfl
      rw [hcntr]
      omega

/-- Master specification of `merge` on well-formed trees: the resulting
sequence is the concatenation (first tree's positions before the second's),
the result is well-formed, and sizes add up. -/
theorem merge_spec (t1 t2 : SplayTree) (h1 : wfS t1 = true) (h2 : wfS t2 = true) :
    inOrder (merge t1 t2).root = inOrder t1.root ++ inOrder t2.root ∧
      wfS (merge t1 t2) = true ∧
      (merge t1 t2).size = t1.size + t2.size := by
  obtain ⟨hsz1, hpar1, hsize1⟩ := wfS_parts t1 h1
  obtain ⟨hsz2, hpar2, hsize2⟩ := wfS_parts t2 h2
  cases htr1 : t1.root with
  | nil =>
    have hs1 : t1.size = 0 := by rw [hsize1, htr1]; rfl
    simp [merge, htr1, inOrder, h2, hs1]
  | node i1 v1 p1 l1 r1 s1 =>
    cases htr2 : t2.root with
    | nil =>
      have hs2 : t2.size = 0 := by rw [hsize2, htr2]; rfl
      simp [merge, htr1, htr2, inOrder, h1, hs2]
    | node i2 v2 p2 l2 r2 s2 =>
      rw [htr1] at hsz1 hpar1 hsize1
      rw [htr2] at hsz2 hpar2 hsize2
      -- locate and splay the maximum of the first tree
      obtain ⟨hMsz, hMpar, hMctx⟩ := maxDescend_inv (.node i1 v1 p1 l1 r1 s1) []
        hsz1 hpar1 rfl
      obtain ⟨mi, mv, mp, ml, ms, hM⟩ :=
        maxDescend_shape (.node i1 v1 p1 l1 r1 s1) [] (by simp)
      have hPlug := maxDescend_plug (.node i1 v1 p1 l1 r1 s1) []
      have hPost := maxDescend_post (.node i1 v1 p1 l1 r1 s1) []
      rw [hM] at hMsz hMpar hPlug
      obtain ⟨q, n, L2, R2, hEq, hL2, hR2, hSz, hPar⟩ :=
        splayLoop_master (maxDescend (.node i1 v1 p1 l1 r1 s1) []).1 mi mv mp ml .nil ms
      have hparres := hPar hMpar hMctx
      have hszres := hSz hMsz hMctx
      obtain ⟨hqnone, hpL2, -⟩ := parentIs_node _ _ _ _ _ _ _ hparres
      have hR2nil : R2 = PTree.nil := by
        rw [← inOrder_eq_nil_iff, hR2, hPost]
        rfl
      -- sequence of the first tree, seen from the splayed maximum
      have hSeq1 : inOrder (PTree.node i1 v1 p1 l1 r1 s1) = inOrder L2 ++ [mv] := by
        conv_lhs => rw [show inOrder (PTree.node i1 v1 p1 l1 r1 s1) =
            inOrder (plugCtx (.node mi mv mp ml .nil ms)
              (maxDescend (.node i1 v1 p1 l1 r1 s1) []).1) from by
                rw [hPlug]; simp [plugCtx]]
        rw [inOrder_plugCtx, hPost, hL2]
        simp [inOrder, ctxPost]
      obtain ⟨-, hszL2, -⟩ := sizeOk_node _ _ _ _ _ _ hszres
      have hres : merge t1 t2 =
          { root := PTree.node mi mv none L2
              (setParent (some mi) (.node i2 v2 p2 l2 r2 s2))
              (sz L2 + sz (setParent (some mi) (.node i2 v2 p2 l2 r2 s2)) + 1),
            size := sz L2 + sz (setParent (some mi) (.node i2 v2 p2 l2 r2 s2)) + 1 } := by
        simp only [merge, htr1, htr2, subtreeMaximum]
        rw [hM, hEq, hqnone, hR2nil]
        rfl
      obtain ⟨g1, g2, g3⟩ := sizeOk_node _ _ _ _ _ _ hsz2
      obtain ⟨-, q2l, q2r⟩ := parentIs_node _ _ _ _ _ _ _ hpar2
      rw [hres]
      refine ⟨?_, ?_, ?_⟩
      · rw [hSeq1]
        simp [inOrder, inOrder_setParent]
      · simp only [wfS, wfT, Bool.and_eq_true, beq_iff_eq]
        refine ⟨⟨?_, ?_⟩, rfl⟩
        · simp [sizeOk, setParent, sz, hszL2, g1, g2, g3]
        · simp [parentIs, setParent, hpL2, q2l, q2r]
      · show sz L2 + sz (setParent (some mi) (.node i2 v2 p2 l2 r2 s2)) + 1 = _
        rw [sz_setParent, hsize1, hsize2]
        have : sz (PTree.node i1 v1 p1 l1 r1 s1) = cnt L2 + 1 := by
          rw [sz_eq_cnt _ hsz1, cnt_eq_length, hSeq1]
          simp [← cnt_eq_length]
        rw [this, sz_eq_cnt _ hszL2]
        omega

/-! ## Insertion and building -/

theorem sz_nil : sz PTree.nil = 0 := rfl

theorem sz_node (i : Nat) (v : Char) (p : Option Nat) (l r : PTree) (s : Nat) :
    sz (.node i v p l r s) = s := rfl

theorem insertSpecific_spec (tree : SplayTree) (v : Char) (fid : Nat)
    (hwf : wfS tree = true) :
    wfS (insertSpecific tree v fid) = true ∧
      inOrder (insertSpecific tree v fid).root = inOrder tree.root ++ [v] ∧
      (insertSpecific tree v fid).size = tree.size + 1 := by
  obtain ⟨hsz, hpar, hsize⟩ := wfS_parts tree hwf
  refine ⟨?_, ?_, rfl⟩
  · simp only [insertSpecific, wfS, wfT, Bool.and_eq_true, beq_iff_eq]
    refine ⟨⟨?_, ?_⟩, ?_⟩
    · simp [sizeOk, sz_nil, sizeOk_setParent, hsz]
    · simp [parentIs, parentIs_setParent (some fid) none tree.root hpar]
    · simp [sz_node, sz_setParent, hsize]
  · simp [insertSpecific, inOrder, inOrder_setParent]

theorem buildRope_aux (s : List Char) : ∀ (t : SplayTree), wfS t = true →
    wfS (s.foldl (fun t ch => insertSpecific t ch t.size) t) = true ∧
      inOrder (s.foldl (fun t ch => insertSpecific t ch t.size) t).root =
        inOrder t.root ++ s ∧
      (s.foldl (fun t ch => insertSpecific t ch t.size) t).size = t.size + s.length := by
  induction s with
  | nil => intro t h; simp [h]
  | cons a s ih =>
    intro t h
    obtain ⟨w1, w2, w3⟩ := insertSpecific_spec t a t.size h
    obtain ⟨u1, u2, u3⟩ := ih _ w1
    simp only [List.foldl_cons]
    refine ⟨u1, ?_, ?_⟩
    · rw [u2, w2]
      simp
    · rw [u3, w3]
      simp
      omega

/-- The build loop of `main` produces a well-formed tree whose in-order
sequence is the input string. -/
theorem buildRope_spec (s : List Char) : wfS (buildRope s) = true ∧
    inOrder (buildRope s).root = s ∧ (buildRope s).size = s.length := by
  have h := buildRope_aux s emptyTree rfl
  simpa [buildRope, emptyTree, inOrder] using h

/-- `insert` on a well-formed tree never signals anything and always
produces a tree satisfying the size invariant with a consistent cached size,
for every rank, in range or not (with `DEBUG` undefined there is no bounds
check). -/
theorem insert_size_spec (tree : SplayTree) (rank : Nat) (v : Char) (fid : Nat)
    (hwf : wfS tree = true) :
    ∃ t', insert tree rank v fid = some t' ∧ sizeOk t'.root = true ∧
      t'.size = sz t'.root ∧ t'.size = tree.size + 1 := by
  obtain ⟨hsz, hpar, hsize⟩ := wfS_parts tree hwf
  by_cases h1 : rank = tree.size ∧ tree.size > 0
  · have hne : tree.root ≠ .nil := by
      intro h
      rw [h] at hsize
      simp [sz] at hsize
      omega
    obtain ⟨i, v0, L, R, n, hroot, hnode, hsizeres, hIn, hwfres, hid⟩ :=
      orderStat_total tree (rank - 1) hwf hne
    obtain ⟨hszres, -, hcache⟩ := wfS_parts _ hwfres
    rw [hroot] at hszres hcache
    obtain ⟨e1, e2, e3⟩ := sizeOk_node _ _ _ _ _ _ hszres
    have hn : tree.size = n := by
      rw [← hsizeres, hcache]
      rfl
    refine ⟨⟨.node fid v none (.node i v0 (some fid) L R n) .nil (n + 1),
      tree.size + 1⟩, ?_, ?_, ?_, rfl⟩
    · simp only [insert, if_pos h1, hnode]
      rfl
    · simp [sizeOk, sz_nil, sz_node, e1, e2, e3]
    · show tree.size + 1 = n + 1
      omega
  · by_cases h0 : tree.size = 0
    · refine ⟨⟨.node fid v none .nil .nil 1, tree.size + 1⟩, ?_, by simp [sizeOk, sz], ?_, rfl⟩
      · simp only [insert, if_neg h1, if_pos h0]
      · simp [sz, h0]
    · have hne : tree.root ≠ .nil := by
        intro h
        rw [h] at hsize
        simp [sz] at hsize
        exact h0 hsize
      obtain ⟨i, v0, L, R, n, hroot, hnode, hsizeres, hIn, hwfres, hid⟩ :=
        orderStat_total tree rank hwf hne
      obtain ⟨hszres, -, hcache⟩ := wfS_parts _ hwfres
      rw [hroot] at hszres hcache
      obtain ⟨e1, e2, e3⟩ := sizeOk_node _ _ _ _ _ _ hszres
      have hn : tree.size = n := by
        rw [← hsizeres, hcache]
        rfl
      refine ⟨⟨.node fid v none L (.node i v0 (some fid) .nil R (sz R + 1))
        (sz L + (sz R + 1) + 1), tree.size + 1⟩, ?_, ?_, ?_, rfl⟩
      · simp only [insert, if_neg h1, if_neg h0, hnode]
        rfl
      · simp [sizeOk, sz_nil, sz_node, e2, e3]
      · show tree.size + 1 = sz L + (sz R + 1) + 1
        omega

/-! ## The cut-and-paste orchestrator -/

/-- Master specification of `process` under the documented constraints
`0 <= i <= j <= n-1`, `0 <= k <= n - (j-i+1)`: the call succeeds, the
result is well-formed, and its sequence is the remaining document
(original with positions `i..j` removed) with the cut substring reinserted
after the `k`-th remaining character. -/
theorem process_spec (tree : SplayTree) (i j k : Nat) (hwf : wfS tree = true)
    (hij : i ≤ j) (hj : j < tree.size) (hk : k + (j - i + 1) ≤ tree.size) :
    ∃ t', process tree i j k = some t' ∧ wfS t' = true ∧
      inOrder t'.root =
        ((inOrder tree.root).take i ++ (inOrder tree.root).drop (j + 1)).take k ++
          ((inOrder tree.root).take (j + 1)).drop i ++
          ((inOrder tree.root).take i ++ (inOrder tree.root).drop (j + 1)).drop k := by
  have hlen : (inOrder tree.root).length = tree.size := by
    obtain ⟨hsz0, -, hsize0⟩ := wfS_parts tree hwf
    rw [← cnt_eq_length, ← sz_eq_cnt _ hsz0, hsize0]
  obtain ⟨middle0, right0, hs1, hw1, hw2, hq1, hq2, hz1, hz2⟩ := split_spec tree j hwf hj
  have hstep2 : ∃ l1 m1,
      (if i > 0 then split middle0 (i - 1) else some (emptyTree, middle0)) =
        some (l1, m1) ∧
      wfS l1 = true ∧ wfS m1 = true ∧
      inOrder l1.root = (inOrder tree.root).take i ∧
      inOrder m1.root = ((inOrder tree.root).take (j + 1)).drop i ∧
      l1.size = i := by
    by_cases hi : i > 0
    · rw [if_pos hi]
      have hb : i - 1 < middle0.size := by omega
      obtain ⟨l1, m1, e0, e1, e2, e3, e4, e5, e6⟩ := split_spec middle0 (i - 1) hw1 hb
      have hii : i - 1 + 1 = i := by omega
      refine ⟨l1, m1, e0, e1, e2, ?_, ?_, ?_⟩
      · rw [e3, hq1, hii, List.take_take]
        congr 1
        omega
      · rw [e4, hq1, hii]
      · rw [e5]; omega
    · rw [if_neg hi]
      have hi0 : i = 0 := by omega
      refine ⟨emptyTree, middle0, rfl, rfl, hw1, ?_, ?_, ?_⟩
      · simp [emptyTree, inOrder, hi0]
      · rw [hq1, hi0]
        simp
      · simp [emptyTree, hi0]
  obtain ⟨l1, m1, hs2, hwl1, hwm1, hql1, hqm1, hzl1⟩ := hstep2
  obtain ⟨hmq, hmw, hmz⟩ := merge_spec l1 right0 hwl1 hw2
  have hmseq : inOrder (merge l1 right0).root =
      (inOrder tree.root).take i ++ (inOrder tree.root).drop (j + 1) := by
    rw [hmq, hql1, hq2]
  have hmsize : (merge l1 right0).size = i + (tree.size - (j + 1)) := by
    rw [hmz, hzl1, hz2]
  have hstep4 : ∃ l3 r3,
      (if k > 0 then split (merge l1 right0) (k - 1)
        else some (emptyTree, merge l1 right0)) = some (l3, r3) ∧
      wfS l3 = true ∧ wfS r3 = true ∧
      inOrder l3.root =
        ((inOrder tree.root).take i ++ (inOrder tree.root).drop (j + 1)).take k ∧
      inOrder r3.root =
        ((inOrder tree.root).take i ++ (inOrder tree.root).drop (j + 1)).drop k := by
    by_cases hkp : k > 0
    · rw [if_pos hkp]
      have hb : k - 1 < (merge l1 right0).size := by
        rw [hmsize]
        omega
      obtain ⟨l3, r3, e0, e1, e2, e3, e4, e5, e6⟩ :=
        split_spec (merge l1 right0) (k - 1) hmw hb
      have hkk : k - 1 + 1 = k := by omega
      refine ⟨l3, r3, e0, e1, e2, ?_, ?_⟩
      · rw [e3, hkk, hmseq]
      · rw [e4, hkk, hmseq]
    · rw [if_neg hkp]
      have hk0 : k = 0 := by omega
      refine ⟨emptyTree, merge l1 right0, rfl, rfl, hmw, ?_, ?_⟩
      · simp [emptyTree, inOrder, hk0]
      · rw [hmseq, hk0]
        simp
  obtain ⟨l3, r3, hs4, hwl3, hwr3, hql3, hqr3⟩ := hstep4
  obtain ⟨hfq1, hfw1, -⟩ := merge_spec l3 m1 hwl3 hwm1
  obtain ⟨hfq2, hfw2, -⟩ := merge_spec (merge l3 m1) r3 hfw1 hwr3
  refine ⟨merge (merge l3 m1) r3, ?_, hfw2, ?_⟩
  · simp only [process, hs1, hs2, hs4]
  · rw [hfq2, hfq1, hql3, hqm1, hqr3]

/-! ## Further helper lemmas for the claim theorems -/

theorem wfS_sizeInv (t : SplayTree) (h : wfS t = true) : sizeInv t = true := by
  simp only [wfS, wfT, Bool.and_eq_true] at h
  simp only [sizeInv, Bool.and_eq_true]
  exact ⟨h.1.1, h.2⟩

theorem rotateRight_sizeOk (t : PTree) (h : sizeOk t = true) :
    sizeOk (rotateRight t) = true := by
  cases t with
  | nil => simpa using h
  | node nid nv np Y R ns =>
    cases Y with
    | nil => simpa [rotateRight] using h
    | node yid yv yp A B ys =>
      obtain ⟨e1, e2, e3⟩ := sizeOk_node _ _ _ _ _ _ h
      obtain ⟨f1, f2, f3⟩ := sizeOk_node _ _ _ _ _ _ e2
      simp [rotateRight, sizeOk, sz_nil, sz_node, sz_setParent, sizeOk_setParent,
        f2, f3, e3]

theorem rotateLeft_sizeOk (t : PTree) (h : sizeOk t = true) :
    sizeOk (rotateLeft t) = true := by
  cases t with
  | nil => simpa using h
  | node nid nv np L X ns =>
    cases X with
    | nil => simpa [rotateLeft] using h
    | node xid xv xp B A xs =>
      obtain ⟨e1, e2, e3⟩ := sizeOk_node _ _ _ _ _ _ h
      obtain ⟨f1, f2, f3⟩ := sizeOk_node _ _ _ _ _ _ e3
      simp [rotateLeft, sizeOk, sz_nil, sz_node, sz_setParent, sizeOk_setParent,
        f2, f3, e2]

/-- `orderStatisticZeroBasedRanking` preserves well-formedness for every
`k`, in range or not (on an empty tree it is the identity). -/
theorem orderStat_wf (tree : SplayTree) (k : Nat) (hwf : wfS tree = true) :
    wfS (orderStatisticZeroBasedRanking tree k).1 = true := by
  by_cases htr : tree.root = PTree.nil
  · simp only [orderStatisticZeroBasedRanking, htr]
    exact hwf
  · obtain ⟨i, v, L, R, n, -, -, -, -, hwfres, -⟩ := orderStat_total tree k hwf htr
    exact hwfres

/-- `orderStatisticZeroBasedRanking` never changes the in-order sequence,
for every `k`, in range or not. -/
theorem orderStat_seq (tree : SplayTree) (k : Nat) (hwf : wfS tree = true) :
    inOrder (orderStatisticZeroBasedRanking tree k).1.root = inOrder tree.root := by
  by_cases htr : tree.root = PTree.nil
  · simp only [orderStatisticZeroBasedRanking, htr]
  · obtain ⟨i, v, L, R, n, -, -, -, hIn, -, -⟩ := orderStat_total tree k hwf htr
    exact hIn

/-- `split` on a well-formed non-empty tree succeeds for every rank, in
range or not, and yields two well-formed trees. -/
theorem split_total (tree : SplayTree) (rank : Nat)
    (hwf : wfS tree = true) (hne : tree.root ≠ .nil) :
    ∃ p, split tree rank = some p ∧ wfS p.1 = true ∧ wfS p.2 = true := by
  obtain ⟨i, v, L, R, n, hroot, hnode, hsizeres, hIn, hwfres, hid⟩ :=
    orderStat_total tree rank hwf hne
  obtain ⟨hszres, hparres, -⟩ := wfS_parts _ hwfres
  rw [hroot] at hszres hparres
  obtain ⟨e1, e2, e3⟩ := sizeOk_node _ _ _ _ _ _ hszres
  obtain ⟨-, p2, p3⟩ := parentIs_node _ _ _ _ _ _ _ hparres
  cases hR : R with
  | nil =>
    rw [hR] at hnode
    refine ⟨(⟨PTree.node i v none L PTree.nil (sz L + 0 + 1), sz L + 0 + 1⟩,
      emptyTree), ?_, ?_, rfl⟩
    · simp [split, hnode, sz]
    · simp [wfS, wfT, sizeOk, sz_nil, sz_node, parentIs, e2, p2]
  | node ri rv rp rl rr rs =>
    rw [hR] at hnode e3 p3
    obtain ⟨g1, g2, g3⟩ := sizeOk_node _ _ _ _ _ _ e3
    obtain ⟨-, q2, q3⟩ := parentIs_node _ _ _ _ _ _ _ p3
    refine ⟨(⟨PTree.node i v none L PTree.nil (sz L + 0 + 1), sz L + 0 + 1⟩,
      ⟨PTree.node ri rv none rl rr rs, rs⟩), ?_, ?_, ?_⟩
    · simp [split, hnode, setParent, sz]
    · simp [wfS, wfT, sizeOk, sz_nil, sz_node, parentIs, e2, p2]
    · simp [wfS, wfT, sizeOk, sz_nil, sz_node, parentIs, g1, g2, g3, q2, q3]

/-! ## The claims -/

/-- C1: for every well-formed tree and every `i <= j < size`,
`k <= size - (j-i+1)`, `process(tree, i, j, k)` succeeds and the resulting
in-order sequence is the original one with the substring at positions
`[i, j]` removed and reinserted immediately after the `k`-th character of
the remaining sequence (`k = 0` meaning at the very front); in particular,
building from "hello" and processing `(1, 2, 0)` yields "elhlo". -/
theorem C1_process_moves_range :
    (∀ (tree : SplayTree) (i j k : Nat), wfS tree = true → i ≤ j → j < tree.size →
      k + (j - i + 1) ≤ tree.size →
      ∃ t', process tree i j k = some t' ∧
        inOrder t'.root =
          ((inOrder tree.root).take i ++ (inOrder tree.root).drop (j + 1)).take k ++
            ((inOrder tree.root).take (j + 1)).drop i ++
            ((inOrder tree.root).take i ++ (inOrder tree.root).drop (j + 1)).drop k) ∧
    (process (buildRope ['h', 'e', 'l', 'l', 'o']) 1 2 0).map (fun t => inOrder t.root) =
      some ['e', 'l', 'h', 'l', 'o'] := by
  constructor
  · intro tree i j k hwf hij hj hk
    obtain ⟨t', h1, -, h3⟩ := process_spec tree i j k hwf hij hj hk
    exact ⟨t', h1, h3⟩
  · rfl

/-- C2: for every well-formed tree and in-range rank, re-merging the two
results of `split` reproduces the original in-order sequence. -/
theorem C2_split_merge_roundtrip (tree : SplayTree) (rank : Nat)
    (hwf : wfS tree = true) (hrank : rank < tree.size) :
    ∃ p, split tree rank = some p ∧
      inOrder (merge p.1 p.2).root = inOrder tree.root := by
  obtain ⟨t1, t2, hs, hw1, hw2, hq1, hq2, -, -⟩ := split_spec tree rank hwf hrank
  obtain ⟨hmq, -, -⟩ := merge_spec t1 t2 hw1 hw2
  exact ⟨(t1, t2), hs, by rw [hmq, hq1, hq2, List.take_append_drop]⟩

/-- C3: every public operation (rotation, splay, locate, insert, bulk-load
insert, split, merge, process) leaves every reachable node satisfying
`size == 1 + size(left) + size(right)` and the cached tree size equal to
the root's size. -/
theorem C3_size_invariant :
    (∀ t : PTree, sizeOk t = true →
      sizeOk (rotateRight t) = true ∧ sizeOk (rotateLeft t) = true) ∧
    (∀ (c : Ctx) (i : Nat) (v : Char) (p : Option Nat) (l r : PTree) (s : Nat),
      sizeOk (.node i v p l r s) = true → ctxOk c = true →
      sizeOk (splayLoop (.node i v p l r s) c) = true) ∧
    (∀ (tree : SplayTree) (k : Nat), wfS tree = true →
      sizeInv (orderStatisticZeroBasedRanking tree k).1 = true) ∧
    (∀ (tree : SplayTree) (rank : Nat) (v : Char) (fid : Nat), wfS tree = true →
      ∃ t', insert tree rank v fid = some t' ∧ sizeInv t' = true) ∧
    (∀ (tree : SplayTree) (v : Char) (fid : Nat), wfS tree = true →
      sizeInv (insertSpecific tree v fid) = true) ∧
    (∀ (tree : SplayTree) (rank : Nat), wfS tree = true → rank < tree.size →
      ∃ p, split tree rank = some p ∧ sizeInv p.1 = true ∧ sizeInv p.2 = true) ∧
    (∀ t1 t2 : SplayTree, wfS t1 = true → wfS t2 = true →
      sizeInv (merge t1 t2) = true) ∧
    (∀ (tree : SplayTree) (i j k : Nat), wfS tree = true → i ≤ j → j < tree.size →
      k + (j - i + 1) ≤ tree.size →
      ∃ t', process tree i j k = some t' ∧ sizeInv t' = true) := by
  refine ⟨?_, ?_, ?_, ?_, ?_, ?_, ?_, ?_⟩
  · exact fun t h => ⟨rotateRight_sizeOk t h, rotateLeft_sizeOk t h⟩
  · intro c i v p l r s hsz hctx
    obtain ⟨q, n, L, R, hEq, -, -, hSz, -⟩ := splayLoop_master c i v p l r s
    rw [hEq]
    exact hSz hsz hctx
  · exact fun tree k hwf => wfS_sizeInv _ (orderStat_wf tree k hwf)
  · intro tree rank v fid hwf
    obtain ⟨t', h1, h2, h3, -⟩ := insert_size_spec tree rank v fid hwf
    refine ⟨t', h1, ?_⟩
    simp only [sizeInv, Bool.and_eq_true, beq_iff_eq]
    exact ⟨h2, h3⟩
  · exact fun tree v fid hwf => wfS_sizeInv _ (insertSpecific_spec tree v fid hwf).1
  · intro tree rank hwf hrank
    obtain ⟨t1, t2, hs, hw1, hw2, -, -, -, -⟩ := split_spec tree rank hwf hrank
    exact ⟨(t1, t2), hs, wfS_sizeInv _ hw1, wfS_sizeInv _ hw2⟩
  · exact fun t1 t2 h1 h2 => wfS_sizeInv _ (merge_spec t1 t2 h1 h2).2.1
  · intro tree i j k hwf hij hj hk
    obtain ⟨t', h1, h2, -⟩ := process_spec tree i j k hwf hij hj hk
    exact ⟨t', h1, wfS_sizeInv _ h2⟩

/-- C4: the claim demands that after every public operation every non-root
node's parent back-reference is consistent with the corresponding child
link, general-position insert at a middle rank included.  The code violates
this: inserting 'c' at rank 1 into the well-formed two-character document
"ab" transfers the located node's left subtree under the new root (line 360
of the source, `node->left = right->left`) without updating that subtree's
`parent` field, which still names the old node; the resulting tree fails
the non-root parent-consistency check. -/
theorem C4_insert_breaks_parent_consistency :
    wfS (buildRope ['a', 'b']) = true ∧
    (insert (buildRope ['a', 'b']) 1 'c' 2).map (fun t => parentsConsistent t.root) =
      some false := by decide

/-- C5 counterexample: with `DEBUG` undefined the bounds checks are
compiled out.  Called with rank 5 on the well-formed two-character document
"ab" (rank is outside `[0, size]`), `insert` signals no error — it returns
a tree — and silently changes the in-order sequence, contradicting both
halves of the claim. -/
theorem C5_no_bounds_check_cex :
    wfS (buildRope ['a', 'b']) = true ∧
    (buildRope ['a', 'b']).size < 5 ∧
    (insert (buildRope ['a', 'b']) 5 'c' 2).isSome = true ∧
    (insert (buildRope ['a', 'b']) 5 'c' 2).map (fun t => inOrder t.root) ≠
      some ['a', 'b'] := by decide

/-- C5 amended: no out-of-range call is detected or signalled (the checks
are compiled out), and an out-of-range insert may silently change the
sequence; what does hold is that nothing is structurally corrupted: locate
with any index leaves the sequence unchanged and the tree fully well-formed,
insert at any rank returns a tree satisfying the size invariant, and split
at any rank of a non-empty tree returns two well-formed trees. -/
theorem C5_amended_no_silent_corruption (tree : SplayTree) (hwf : wfS tree = true) :
    (∀ k, inOrder (orderStatisticZeroBasedRanking tree k).1.root = inOrder tree.root ∧
      wfS (orderStatisticZeroBasedRanking tree k).1 = true) ∧
    (∀ rank v fid, ∃ t', insert tree rank v fid = some t' ∧
      sizeOk t'.root = true ∧ t'.size = sz t'.root) ∧
    (tree.root ≠ .nil → ∀ rank, ∃ p, split tree rank = some p ∧
      wfS p.1 = true ∧ wfS p.2 = true) := by
  refine ⟨?_, ?_, ?_⟩
  · exact fun k => ⟨orderStat_seq tree k hwf, orderStat_wf tree k hwf⟩
  · intro rank v fid
    obtain ⟨t', h1, h2, h3, -⟩ := insert_size_spec tree rank v fid hwf
    exact ⟨t', h1, h2, h3⟩
  · exact fun hne rank => split_total tree rank hwf hne

/-- C6: for every well-formed tree and in-range `k`, the node returned by
the order-statistic locate carries the `k`-th character of the in-order
sequence, and that node is the root of the resulting tree (it has been
splayed to the top). -/
theorem C6_locate_order_statistic (tree : SplayTree) (k : Nat)
    (hwf : wfS tree = true) (hk : k < tree.size) :
    (orderStatisticZeroBasedRanking tree k).2 =
      (orderStatisticZeroBasedRanking tree k).1.root ∧
    rootVal (orderStatisticZeroBasedRanking tree k).2 = (inOrder tree.root)[k]? := by
  obtain ⟨i, v, L, R, n, hroot, hnode, -, -, hDrop, -⟩ := orderStat_master tree k hwf hk
  refine ⟨by rw [hroot, hnode], ?_⟩
  rw [hnode]
  show some v = _
  rw [← List.head?_drop, ← hDrop]
  rfl

/-- C7: for all well-formed trees, the in-order sequence of
`merge(T1, T2)` is the sequence of `T1` followed by the sequence of `T2`;
in particular the empty tree is an identity on either side. -/
theorem C7_merge_concat_identity (t1 t2 : SplayTree)
    (h1 : wfS t1 = true) (h2 : wfS t2 = true) :
    inOrder (merge t1 t2).root = inOrder t1.root ++ inOrder t2.root ∧
    inOrder (merge t1 emptyTree).root = inOrder t1.root ∧
    inOrder (merge emptyTree t2).root = inOrder t2.root := by
  refine ⟨(merge_spec t1 t2 h1 h2).1, ?_, ?_⟩
  · have h := (merge_spec t1 emptyTree h1 rfl).1
    simpa [emptyTree, inOrder] using h
  · have h := (merge_spec emptyTree t2 rfl h2).1
    simpa [emptyTree, inOrder] using h

/-- C8: for every well-formed tree and in-range rank, `split` puts exactly
positions `0..rank` in the left tree and `rank+1..end` in the right tree,
the right tree being the empty tree in the boundary case
`rank = size - 1`. -/
theorem C8_split_partition (tree : SplayTree) (rank : Nat)
    (hwf : wfS tree = true) (hrank : rank < tree.size) :
    ∃ p, split tree rank = some p ∧
      inOrder p.1.root = (inOrder tree.root).take (rank + 1) ∧
      inOrder p.2.root = (inOrder tree.root).drop (rank + 1) ∧
      (rank + 1 = tree.size → p.2.root = .nil) := by
  have hlen : (inOrder tree.root).length = tree.size := by
    obtain ⟨hsz0, -, hsize0⟩ := wfS_parts tree hwf
    rw [← cnt_eq_length, ← sz_eq_cnt _ hsz0, hsize0]
  obtain ⟨t1, t2, hs, hw1, hw2, hq1, hq2, hz1, hz2⟩ := split_spec tree rank hwf hrank
  refine ⟨(t1, t2), hs, hq1, hq2, ?_⟩
  intro hlast
  rw [← inOrder_eq_nil_iff, hq2]
  apply List.drop_eq_nil_of_le
  omega

/-- C9: the splay loop terminates: every iteration (zig, zig-zig or
zig-zag) strictly decreases the focused node's depth (the length of its
parent chain), the loop is exactly the iteration of `splayStep` and stops
precisely when the node has no parent, and when it stops the focused node
is the root of the resulting tree. -/
theorem C9_splay_terminates :
    (∀ (t : PTree) (f : Frame) (c : Ctx),
      ((splayStep t (f :: c)).2).length < (f :: c).length) ∧
    (∀ t : PTree, splayLoop t [] = t) ∧
    (∀ (t : PTree) (f : Frame) (c : Ctx),
      splayLoop t (f :: c) =
        splayLoop (splayStep t (f :: c)).1 (splayStep t (f :: c)).2) ∧
    (∀ (c : Ctx) (i : Nat) (v : Char) (p : Option Nat) (l r : PTree) (s : Nat),
      ∃ q n L R, splayLoop (.node i v p l r s) c = .node i v q L R n) := by
  refine ⟨?_, fun t => rfl, ?_, ?_⟩
  · intro t f c
    cases c with
    | nil => simp [splayStep]
    | cons f2 rest => simp [splayStep]; omega
  · intro t f c
    cases c <;> simp [splayStep, splayLoop]
  · intro c i v p l r s
    obtain ⟨q, n, L, R, hEq, -⟩ := splayLoop_master c i v p l r s
    exact ⟨q, n, L, R, hEq⟩

/-- C10: on a well-formed non-empty tree, locate terminates for every
unsigned `k` — including `k >= size` — without signalling anything, and
returns a non-null node of the tree which it has splayed to the root; on an
empty tree it returns the null pointer for every `k`. -/
theorem C10_locate_total_safety (tree : SplayTree) (k : Nat)
    (hwf : wfS tree = true) :
    (tree.root = .nil → (orderStatisticZeroBasedRanking tree k).2 = .nil) ∧
    (tree.root ≠ .nil →
      (orderStatisticZeroBasedRanking tree k).2 ≠ .nil ∧
      (orderStatisticZeroBasedRanking tree k).2 =
        (orderStatisticZeroBasedRanking tree k).1.root ∧
      inOrder (orderStatisticZeroBasedRanking tree k).1.root = inOrder tree.root ∧
      (∃ i, rootId ((orderStatisticZeroBasedRanking tree k).2) = some i ∧
        i ∈ ids tree.root)) := by
  constructor
  · intro h
    simp [orderStatisticZeroBasedRanking, h]
  · intro hne
    obtain ⟨i, v, L, R, n, hroot, hnode, -, hIn, -, hid⟩ := orderStat_total tree k hwf hne
    refine ⟨by rw [hnode]; simp, by rw [hroot, hnode], hIn, ⟨i, by rw [hnode]; rfl, hid⟩⟩

/-! ## Concrete witnesses -/

/-- Witness for C1 at scenario A of the specification: build "abcdef",
move range (0, 2, 2). -/
theorem C1_process_moves_range_witness :
    ∃ t', process (buildRope ['a', 'b', 'c', 'd', 'e', 'f']) 0 2 2 = some t' ∧
      inOrder t'.root =
        ((inOrder (buildRope ['a', 'b', 'c', 'd', 'e', 'f']).root).take 0 ++
          (inOrder (buildRope ['a', 'b', 'c', 'd', 'e', 'f']).root).drop 3).take 2 ++
        ((inOrder (buildRope ['a', 'b', 'c', 'd', 'e', 'f']).root).take 3).drop 0 ++
        ((inOrder (buildRope ['a', 'b', 'c', 'd', 'e', 'f']).root).take 0 ++
          (inOrder (buildRope ['a', 'b', 'c', 'd', 'e', 'f']).root).drop 3).drop 2 :=
  C1_process_moves_range.1 (buildRope ['a', 'b', 'c', 'd', 'e', 'f']) 0 2 2
    (by decide) (by decide) (by decide) (by decide)

/-- Witness for C2 at the document "abc" and rank 1. -/
theorem C2_split_merge_roundtrip_witness :
    ∃ p, split (buildRope ['a', 'b', 'c']) 1 = some p ∧
      inOrder (merge p.1 p.2).root = inOrder (buildRope ['a', 'b', 'c']).root :=
  C2_split_merge_roundtrip (buildRope ['a', 'b', 'c']) 1 (by decide) (by decide)

/-- Witness for C3: each operation instantiated at a concrete input. -/
theorem C3_size_invariant_witness :
    (sizeOk (rotateRight (buildRope ['a', 'b', 'c']).root) = true ∧
      sizeOk (rotateLeft (buildRope ['a', 'b', 'c']).root) = true) ∧
    sizeOk (splayLoop (PTree.node 0 'a' none PTree.nil PTree.nil 1) []) = true ∧
    sizeInv (orderStatisticZeroBasedRanking (buildRope ['a', 'b']) 0).1 = true ∧
    (∃ t', insert (buildRope ['a', 'b']) 1 'c' 2 = some t' ∧ sizeInv t' = true) ∧
    sizeInv (insertSpecific (buildRope ['a', 'b']) 'c' 2) = true ∧
    (∃ p, split (buildRope ['a', 'b']) 0 = some p ∧
      sizeInv p.1 = true ∧ sizeInv p.2 = true) ∧
    sizeInv (merge (buildRope ['a', 'b']) (buildRope ['x'])) = true ∧
    (∃ t', process (buildRope ['a', 'b', 'c']) 0 1 1 = some t' ∧ sizeInv t' = true) :=
  ⟨C3_size_invariant.1 _ (by decide),
   C3_size_invariant.2.1 [] 0 'a' none PTree.nil PTree.nil 1 (by decide) (by decide),
   C3_size_invariant.2.2.1 (buildRope ['a', 'b']) 0 (by decide),
   C3_size_invariant.2.2.2.1 (buildRope ['a', 'b']) 1 'c' 2 (by decide),
   C3_size_invariant.2.2.2.2.1 (buildRope ['a', 'b']) 'c' 2 (by decide),
   C3_size_invariant.2.2.2.2.2.1 (buildRope ['a', 'b']) 0 (by decide) (by decide),
   C3_size_invariant.2.2.2.2.2.2.1 (buildRope ['a', 'b']) (buildRope ['x'])
     (by decide) (by decide),
   C3_size_invariant.2.2.2.2.2.2.2 (buildRope ['a', 'b', 'c']) 0 1 1
     (by decide) (by decide) (by decide) (by decide)⟩

/-- Witness for the amended C5 at the document "ab", with out-of-range
indices 7 (locate), 5 (insert) and 9 (split). -/
theorem C5_amended_no_silent_corruption_witness :
    inOrder (orderStatisticZeroBasedRanking (buildRope ['a', 'b']) 7).1.root =
      inOrder (buildRope ['a', 'b']).root ∧
    wfS (orderStatisticZeroBasedRanking (buildRope ['a', 'b']) 7).1 = true ∧
    (∃ t', insert (buildRope ['a', 'b']) 5 'c' 2 = some t' ∧
      sizeOk t'.root = true ∧ t'.size = sz t'.root) ∧
    (∃ p, split (buildRope ['a', 'b']) 9 = some p ∧
      wfS p.1 = true ∧ wfS p.2 = true) := by
  have h := C5_amended_no_silent_corruption (buildRope ['a', 'b']) (by decide)
  exact ⟨(h.1 7).1, (h.1 7).2, h.2.1 5 'c' 2, h.2.2 (by decide) 9⟩

/-- Witness for C6 at the document "abc" and rank 2. -/
theorem C6_locate_order_statistic_witness :
    (orderStatisticZeroBasedRanking (buildRope ['a', 'b', 'c']) 2).2 =
      (orderStatisticZeroBasedRanking (buildRope ['a', 'b', 'c']) 2).1.root ∧
    rootVal (orderStatisticZeroBasedRanking (buildRope ['a', 'b', 'c']) 2).2 =
      (inOrder (buildRope ['a', 'b', 'c']).root)[2]? :=
  C6_locate_order_statistic (buildRope ['a', 'b', 'c']) 2 (by decide) (by decide)

/-- Witness for C7 at the documents "ab" and "x". -/
theorem C7_merge_concat_identity_witness :
    inOrder (merge (buildRope ['a', 'b']) (buildRope ['x'])).root =
      inOrder (buildRope ['a', 'b']).root ++ inOrder (buildRope ['x']).root ∧
    inOrder (merge (buildRope ['a', 'b']) emptyTree).root =
      inOrder (buildRope ['a', 'b']).root ∧
    inOrder (merge emptyTree (buildRope ['x'])).root =
      inOrder (buildRope ['x']).root :=
  C7_merge_concat_identity (buildRope ['a', 'b']) (buildRope ['x'])
    (by decide) (by decide)

/-- Witness for C8 at the document "ab" and the boundary rank
`size - 1 = 1`, where the right tree comes out empty. -/
theorem C8_split_partition_witness :
    ∃ p, split (buildRope ['a', 'b']) 1 = some p ∧
      inOrder p.1.root = (inOrder (buildRope ['a', 'b']).root).take 2 ∧
      inOrder p.2.root = (inOrder (buildRope ['a', 'b']).root).drop 2 ∧
      (1 + 1 = (buildRope ['a', 'b']).size → p.2.root = PTree.nil) :=
  C8_split_partition (buildRope ['a', 'b']) 1 (by decide) (by decide)

/-- Witness for C10 at the document "ab" with the out-of-range index 9. -/
theorem C10_locate_total_safety_witness :
    (orderStatisticZeroBasedRanking (buildRope ['a', 'b']) 9).2 ≠ PTree.nil ∧
    (orderStatisticZeroBasedRanking (buildRope ['a', 'b']) 9).2 =
      (orderStatisticZeroBasedRanking (buildRope ['a', 'b']) 9).1.root ∧
    inOrder (orderStatisticZeroBasedRanking (buildRope ['a', 'b']) 9).1.root =
      inOrder (buildRope ['a', 'b']).root ∧
    (∃ i, rootId ((orderStatisticZeroBasedRanking (buildRope ['a', 'b']) 9).2) = some i ∧
      i ∈ ids (buildRope ['a', 'b']).root) :=
  (C10_locate_total_safety (buildRope ['a', 'b']) 9 (by decide)).2 (by decide)

end Rope
